import Mathlib

/-!
Verification of the post-estimation statistical layer of PyEMMA's
`EstimatedMSM` (file `pyemma/msm/estimators/estimated_msm.py`).

Conventions of the shallow embedding:
* numpy float arrays are embedded as `List ℚ` (exact rational arithmetic in
  place of IEEE doubles), integer arrays as `List Int`, matrices as lists of
  rows;
* numpy "fancy" indexing (`arr[idx_array]`) and fancy assignment
  (`arr[idx_array] = vals`) are embedded faithfully, including numpy's
  negative-index wrapping and the `IndexError` raised for an index outside
  `[-len, len)`; fallible operations return `Option`, with `none` standing
  for a raised exception;
* `np.sum` applied to a Python list of arrays is embedded for the regime in
  which its behaviour is unambiguous: an empty list, a single array, or
  several arrays of equal length (summing every entry); for several arrays
  of differing lengths the 2015-era numpy object-array reduction raises a
  broadcast `ValueError`, which the embedding models as `none`.
-/

set_option autoImplicit false

/-- Resolve a (possibly negative) numpy index against an array of length `n`:
indices in `[0, n)` are used as is, indices in `[-n, 0)` wrap to `n + i`,
anything else raises `IndexError` (`none`). -/
def npResolveIdx (n : Nat) (i : Int) : Option Nat :=
  if 0 ≤ i ∧ i < (n : Int) then some i.toNat
  else if -(n : Int) ≤ i ∧ i < 0 then some (i + (n : Int)).toNat
  else none

/-- Sequentially perform the assignments `arr[i] := v` for each pair `(i, v)`,
resolving every index with numpy semantics; any unresolvable index raises
(`none`).  This is the elementwise core of numpy fancy assignment, in which
a repeated index takes the last value written. -/
def npSetPairs {α : Type} (arr : List α) : List (Int × α) → Option (List α)
  | [] => some arr
  | (i, v) :: rest =>
    match npResolveIdx arr.length i with
    | none => none
    | some j => npSetPairs (arr.set j v) rest

/-- numpy fancy assignment `arr[idxs] = vals`: the index array and the value
array must have the same length (otherwise numpy raises a broadcast error),
then the assignments are performed elementwise. -/
def npFancySet {α : Type} (arr : List α) (idxs : List Int) (vals : List α) :
    Option (List α) :=
  if idxs.length = vals.length then npSetPairs arr (idxs.zip vals) else none

/-- Error-propagating map: `some` of the mapped list when `f` succeeds on
every element, `none` as soon as it fails (this is `mapM` over `Option`,
written as plain recursion). -/
def mapOpt {α β : Type} (f : α → Option β) : List α → Option (List β)
  | [] => some []
  | x :: xs =>
    match f x with
    | none => none
    | some y =>
      match mapOpt f xs with
      | none => none
      | some ys => some (y :: ys)

/-- numpy fancy read `arr[idxs]` with default `d` used only to total the
lookup (a resolved index is always in range, so `d` is never produced):
returns the array of looked-up values, or raises (`none`) when some index is
outside `[-len, len)`. -/
def npFancyGet {α : Type} (arr : List α) (d : α) (idxs : List Int) :
    Option (List α) :=
  mapOpt (fun i => (npResolveIdx arr.length i).map (fun j => arr.getD j d)) idxs

/-- The constructor's full→active map (`estimated_msm.py` lines 101–102):
`full2active = -1 * ones(nstates_full); full2active[active_set] = arange(len(active_set))`. -/
def full2active (nstates_full : Nat) (active_set : List Int) :
    Option (List Int) :=
  npFancySet (List.replicate nstates_full (-1)) active_set
    ((List.range active_set.length).map Int.ofNat)

example : full2active 5 [0, 2, 4] = some [0, -1, 1, -1, 2] := by decide
example : full2active 2 [-1] = some [-1, 0] := by decide
example : full2active 2 [2] = none := by decide
example : npFancyGet [(5 : Int), 6, 7] 0 [2, 0, -1] = some [7, 5, 7] := by decide

/-- A matrix embedded as a list of rows. -/
abbrev Mat := List (List ℚ)

/-- The estimated Markov state model, as stored by `EstimatedMSM.__init__`.
The superclass `MSM` (out of scope, `pyemma/msm/models/msm.py`) receives the
transition matrix and derives `stationary_distribution` from it; both are
carried here as stored fields, since this layer only reads them back.
`asiCache` models the lazily created attribute `_active_state_indexes`
(absent = attribute not yet set). -/
structure EstimatedMSM where
  nstates_full : Nat
  active_set : List Int
  dtrajs_full : List (List Int)
  connected_sets : List (List Int)
  C_full : Mat
  C_active : Mat
  transition_matrix : Mat
  stationary_distribution : List ℚ
  full2activeMap : List Int
  asiCache : Option (List (List (Nat × Nat)))
  deriving Repr, DecidableEq

/-- `EstimatedMSM.__init__` (lines 86–105): stores (deep copies of) the
arguments, sets `nstates_full = np.shape(C_full)[0]` and computes the
full→active map; the numpy fancy assignment in that computation raises
`IndexError` (`none`) when an active-set label cannot be resolved. -/
def mkEstimatedMSM (dtrajs : List (List Int)) (active_set : List Int)
    (connected_sets : List (List Int)) (C_full C_active : Mat)
    (transition_matrix : Mat) (stationary_distribution : List ℚ) :
    Option EstimatedMSM :=
  match full2active C_full.length active_set with
  | none => none
  | some f2a =>
    some { nstates_full := C_full.length
           active_set := active_set
           dtrajs_full := dtrajs
           connected_sets := connected_sets
           C_full := C_full
           C_active := C_active
           transition_matrix := transition_matrix
           stationary_distribution := stationary_distribution
           full2activeMap := f2a
           asiCache := none }

/-- Accessor `count_matrix_active` (lines 196–213): returns the stored
active-set count matrix. -/
def count_matrix_active (m : EstimatedMSM) : Mat := m.C_active

/-- Accessor `count_matrix_full` (lines 237–253): returns the stored
full-space count matrix. -/
def count_matrix_full (m : EstimatedMSM) : Mat := m.C_full

/-- Accessor `discrete_trajectories_full` (lines 169–176). -/
def discrete_trajectories_full (m : EstimatedMSM) : List (List Int) :=
  m.dtrajs_full

/-- Accessor `discrete_trajectories_active` (lines 178–193): maps every
stored full trajectory through the full→active map by numpy fancy
indexing `self._full2active[dtraj]`. -/
def discrete_trajectories_active (m : EstimatedMSM) :
    Option (List (List Int)) :=
  mapOpt (npFancyGet m.full2activeMap 0) m.dtrajs_full

/-- Submatrix extraction as described by the spec's external interface
(`submatrix(matrix, index subset) → square submatrix in subset order`); used
to state the claimed relation between the two stored count matrices. -/
def submatrixSpec (C : Mat) (S : List Int) : Mat :=
  S.map (fun i => S.map (fun j => (C.getD i.toNat []).getD j.toNat 0))

/-- `np.sum` over a Python list of float arrays, in its unambiguous regime;
see the file header.  Raises (`none`) on two or more arrays of differing
lengths. -/
def npSumList (W : List (List ℚ)) : Option ℚ :=
  if W.length ≤ 1 ∨ W.all (fun w => w.length = (W.headD []).length) then
    some ((W.map List.sum).sum)
  else none

/-- The accumulation loop of `trajectory_weights` (lines 330–335): for each
trajectory, read the expanded stationary distribution at its frames
(`w = statdist_full[dtraj]`), append `w` to `W`, and add `np.sum(W)` — the
sum over every array appended so far, not just `w` — to the running total. -/
def twLoop (sdf : List ℚ) :
    List (List Int) → List (List ℚ) → ℚ → Option (List (List ℚ) × ℚ)
  | [], W, wtot => some (W, wtot)
  | dtraj :: rest, W, wtot =>
    match npFancyGet sdf 0 dtraj with
    | none => none
    | some w =>
      match npSumList (W ++ [w]) with
      | none => none
      | some s => twLoop sdf rest (W ++ [w]) (wtot + s)

/-- `trajectory_weights` (lines 325–340): expand the stationary distribution
to the full state space (`statdist_full[active_set] = stationary_distribution`
over a zero vector), accumulate per-trajectory weight arrays and the grand
total `wtot` via `twLoop`, then divide every weight by `wtot`. -/
def trajectory_weights (m : EstimatedMSM) : Option (List (List ℚ)) :=
  match npFancySet (List.replicate m.nstates_full (0 : ℚ)) m.active_set
      m.stationary_distribution with
  | none => none
  | some sdf =>
    match twLoop sdf m.dtrajs_full [] 0 with
    | none => none
    | some (W, wtot) => some (W.map (fun w => w.map (fun x => x / wtot)))

/-- The sum of all entries of all weight arrays (the quantity the docstring
of `trajectory_weights` asserts to be 1). -/
def totalWeight (W : List (List ℚ)) : ℚ := (W.map List.sum).sum

/-- Modelled from the spec: `pyemma.util.discrete_trajectories.index_states`
is not in the source tree; spec §4.1 specifies `buildIndex(trajectories,
activeSet)` as producing, for every active-space index `i`, the list of
`(trajIdx, t)` pairs whose full label is `activeSet[i]`, ordered first by
trajectory index then by time index. -/
def index_states (dtrajs : List (List Int)) (subset : List Int) :
    List (List (Nat × Nat)) :=
  subset.map (fun s =>
    (dtrajs.enum.map (fun p =>
      p.2.enum.filterMap (fun q =>
        if q.2 = s then some (p.1, q.1) else none))).flatten)

/-- Accessor `active_state_indexes` (lines 346–358): return the cached
attribute if present, else compute `index_states(dtrajs_full, active_set)`,
store it, and return it.  The pair returned is (value, model after the
access), making the cache fill explicit. -/
def active_state_indexes (m : EstimatedMSM) :
    List (List (Nat × Nat)) × EstimatedMSM :=
  match m.asiCache with
  | some t => (t, m)
  | none =>
    let t := index_states m.dtrajs_full m.active_set
    (t, { m with asiCache := some t })

/-!
Ensemble statistics (spec §4.5).  The implementations of `sample_mean`,
`sample_std` and `sample_conf` live in `pyemma.msm.models` /
`pyemma.util.statistics`, which are not in the source tree — only their
tests are (`test_bayesian_msm.py`, `test_transition_matrix_stats` etc.).
The definitions below are therefore modelled from the spec.
-/

/-- Modelled from the spec: per-member functional values of an ensemble
(`sampleValues(ensemble, functionalName)`), the functional applied to every
member in order. -/
def sampleValues {μ : Type} (ensemble : List μ) (f : μ → List ℚ) :
    List (List ℚ) :=
  ensemble.map f

/-- The samples of one coordinate (elementwise position `k`) across a list
of equally-shaped vector values. -/
def coordSamples (vals : List (List ℚ)) (k : Nat) : List ℚ :=
  vals.map (fun v => v.getD k 0)

/-- Modelled from the spec: elementwise arithmetic mean (§4.5 `mean`). -/
def sampleMean (xs : List ℚ) : ℚ := xs.sum / (xs.length : ℚ)

/-- Modelled from the spec: elementwise unbiased sample variance, the square
of the standard deviation of §4.5 `std`; `std = √variance`, so `std` is
non-negative exactly when this quantity is (square roots of non-negative
rationals being irrational in general, the embedding states `std ≥ 0`
through its square). -/
def sampleVarU (xs : List ℚ) : ℚ :=
  ((xs.map (fun x => (x - sampleMean xs) ^ 2)).sum) / ((xs.length : ℚ) - 1)

/-- Modelled from the spec: the lower confidence bound of §4.5
`confidenceInterval`, chosen by the spec's own bracketing prescription —
the nearest order statistic below (or at) the mean, i.e. the largest sample
value that does not exceed the mean. -/
def ciLower (xs : List ℚ) : ℚ :=
  match xs.filter (fun x => decide (x ≤ sampleMean xs)) with
  | [] => sampleMean xs
  | y :: ys => ys.foldl max y

/-- Modelled from the spec: the upper confidence bound of §4.5
`confidenceInterval`: the nearest order statistic above (or at) the mean,
i.e. the smallest sample value that is not below the mean. -/
def ciUpper (xs : List ℚ) : ℚ :=
  match xs.filter (fun x => decide (sampleMean xs ≤ x)) with
  | [] => sampleMean xs
  | y :: ys => ys.foldl min y

/-!
Store model for constructor isolation (claim about `copy.deepcopy` in
`__init__`, lines 88–96).  Mutation of Python arrays is observable only
through shared references, so the embedding makes the reference structure
explicit: a heap is a list of cells addressed by position, the caller holds
addresses of the cells it allocated, and `deepcopy` allocates fresh cells
holding copies of the current contents.  Integer-array-valued arguments
(trajectories, active set, connected sets) live in a heap of `List Int`
cells; the two count matrices live in a heap of `Mat` cells.
-/

/-- Read a heap cell (default `d` for a dangling address). -/
def heapRead {α : Type} (d : α) (h : List α) (a : Nat) : α := h.getD a d

/-- Overwrite a heap cell in place: the caller-side mutation primitive. -/
def heapWrite {α : Type} (h : List α) (a : Nat) (v : α) : List α := h.set a v

/-- The addresses an `EstimatedMSM` holds after construction, once every
array argument has been deep-copied (`__init__` lines 88–96): the active
set and each trajectory and connected set are fresh `List Int` cells; the
two count matrices are fresh `Mat` cells. -/
structure StoredAddrs where
  activeAddr : Nat
  dtrajAddrs : List Nat
  connAddrs : List Nat
  cfullAddr : Nat
  cactiveAddr : Nat
  deriving Repr, DecidableEq

/-- Construction with explicit deep copies (`copy.deepcopy` of every array
argument, `__init__` lines 88–96): each copy is allocated by appending a
cell holding the current contents of the caller's cell, the fresh cell's
address being the heap length at allocation time; the model keeps only the
fresh addresses.  Allocation order: active set, trajectories, connected
sets on the integer heap; `C_full` then `C_active` on the matrix heap. -/
def constructStored (hI : List (List Int)) (hM : List Mat)
    (activeAddr : Nat) (dtrajAddrs : List Nat) (connAddrs : List Nat)
    (cfullAddr cactiveAddr : Nat) :
    List (List Int) × List Mat × StoredAddrs :=
  let hI1 := hI ++ [heapRead [] hI activeAddr]
  let hI2 := hI1 ++ dtrajAddrs.map (heapRead [] hI1)
  let hI3 := hI2 ++ connAddrs.map (heapRead [] hI2)
  let hM1 := hM ++ [heapRead [] hM cfullAddr]
  let hM2 := hM1 ++ [heapRead [] hM1 cactiveAddr]
  (hI3, hM2,
   { activeAddr := hI.length
     dtrajAddrs := (List.range dtrajAddrs.length).map (fun k => hI1.length + k)
     connAddrs := (List.range connAddrs.length).map (fun k => hI2.length + k)
     cfullAddr := hM.length
     cactiveAddr := hM1.length })

/-- Accessor reads of the stored model against the heaps: the trajectories,
active set, connected sets and count matrices the model's accessors return. -/
def storedReads (hI : List (List Int)) (hM : List Mat) (s : StoredAddrs) :
    List (List Int) × List Int × List (List Int) × Mat × Mat :=
  (s.dtrajAddrs.map (heapRead [] hI),
   heapRead [] hI s.activeAddr,
   s.connAddrs.map (heapRead [] hI),
   heapRead [] hM s.cfullAddr,
   heapRead [] hM s.cactiveAddr)

/-!
Lemmas about the numpy indexing primitives.
-/

theorem npResolveIdx_of_range {n : Nat} {i : Int} (h0 : 0 ≤ i)
    (h1 : i < (n : Int)) : npResolveIdx n i = some i.toNat := by
  simp [npResolveIdx, h0, h1]

theorem npResolveIdx_lt {n j : Nat} {i : Int}
    (h : npResolveIdx n i = some j) : j < n := by
  unfold npResolveIdx at h
  split at h
  · rename_i hc
    cases h
    omega
  · split at h
    · rename_i hc
      cases h
      omega
    · cases h

theorem npSetPairs_length {α : Type} (pairs : List (Int × α)) :
    ∀ (arr m : List α), npSetPairs arr pairs = some m →
      m.length = arr.length := by
  induction pairs with
  | nil =>
    intro arr m h
    simp [npSetPairs] at h
    simp [h]
  | cons p rest ih =>
    intro arr m h
    obtain ⟨i, v⟩ := p
    cases hres : npResolveIdx arr.length i with
    | none => simp [npSetPairs, hres] at h
    | some j =>
      simp only [npSetPairs, hres] at h
      have := ih (arr.set j v) m h
      simpa using this

theorem npSetPairs_some {α : Type} (pairs : List (Int × α)) :
    ∀ (arr : List α),
      (∀ p ∈ pairs, (npResolveIdx arr.length p.1).isSome) →
      ∃ m, npSetPairs arr pairs = some m := by
  induction pairs with
  | nil =>
    intro arr _
    exact ⟨arr, rfl⟩
  | cons p rest ih =>
    intro arr hall
    obtain ⟨i, v⟩ := p
    cases hres : npResolveIdx arr.length i with
    | none =>
      have := hall (i, v) (List.mem_cons_self _ _)
      rw [hres] at this
      cases this
    | some j =>
      have hrest : ∀ q ∈ rest, (npResolveIdx (arr.set j v).length q.1).isSome := by
        intro q hq
        rw [List.length_set]
        exact hall q (List.mem_cons_of_mem _ hq)
      obtain ⟨m, hm⟩ := ih (arr.set j v) hrest
      exact ⟨m, by simp only [npSetPairs, hres]; exact hm⟩

theorem npSetPairs_none {α : Type} (pairs : List (Int × α)) :
    ∀ (arr : List α) (p : Int × α), p ∈ pairs →
      npResolveIdx arr.length p.1 = none →
      npSetPairs arr pairs = none := by
  induction pairs with
  | nil =>
    intro arr p hp
    cases hp
  | cons q rest ih =>
    intro arr p hp hbad
    obtain ⟨i, v⟩ := q
    cases hres : npResolveIdx arr.length i with
    | none => simp only [npSetPairs, hres]
    | some j =>
      simp only [npSetPairs, hres]
      rcases List.mem_cons.1 hp with heq | hmem
      · rw [heq] at hbad
        rw [hbad] at hres
        cases hres
      · exact ih (arr.set j v) p hmem (by rw [List.length_set]; exact hbad)

theorem npSetPairs_untouched {α : Type} (pairs : List (Int × α)) :
    ∀ (arr m : List α) (j : Nat),
      npSetPairs arr pairs = some m →
      (∀ p ∈ pairs, npResolveIdx arr.length p.1 ≠ some j) →
      m[j]? = arr[j]? := by
  induction pairs with
  | nil =>
    intro arr m j h _
    simp [npSetPairs] at h
    rw [h]
  | cons p rest ih =>
    intro arr m j h havoid
    obtain ⟨i, v⟩ := p
    cases hres : npResolveIdx arr.length i with
    | none => simp [npSetPairs, hres] at h
    | some j0 =>
      simp only [npSetPairs, hres] at h
      have hj0 : j0 ≠ j := by
        intro hcon
        exact havoid (i, v) (List.mem_cons_self _ _) (by rw [hres, hcon])
      have havoid' : ∀ q ∈ rest, npResolveIdx (arr.set j0 v).length q.1 ≠ some j := by
        intro q hq
        rw [List.length_set]
        exact havoid q (List.mem_cons_of_mem _ hq)
      have := ih (arr.set j0 v) m j h havoid'
      rw [this, List.getElem?_set_ne hj0]

theorem npSetPairs_written {α : Type} (pairs : List (Int × α)) :
    ∀ (arr m : List α) (i : Int) (v : α) (j : Nat),
      npSetPairs arr pairs = some m →
      (i, v) ∈ pairs →
      npResolveIdx arr.length i = some j →
      pairs.Pairwise (fun p q =>
        npResolveIdx arr.length p.1 ≠ npResolveIdx arr.length q.1) →
      m[j]? = some v := by
  induction pairs with
  | nil =>
    intro arr m i v j _ hmem
    cases hmem
  | cons p rest ih =>
    intro arr m i v j h hmem hres hpw
    obtain ⟨i0, v0⟩ := p
    cases hres0 : npResolveIdx arr.length i0 with
    | none => simp [npSetPairs, hres0] at h
    | some j0 =>
      simp only [npSetPairs, hres0] at h
      rw [List.pairwise_cons] at hpw
      rcases List.mem_cons.1 hmem with heq | hmem'
      · injection heq with hi hv
        subst hi
        subst hv
        rw [hres] at hres0
        injection hres0 with hj0
        subst hj0
        have havoid : ∀ q ∈ rest, npResolveIdx (arr.set j v).length q.1 ≠ some j := by
          intro q hq
          rw [List.length_set]
          intro hcon
          exact hpw.1 q hq (by rw [hres, hcon])
        have := npSetPairs_untouched rest (arr.set j v) m j h havoid
        rw [this]
        exact List.getElem?_set_self (npResolveIdx_lt hres)
      · have hpw' : rest.Pairwise (fun p q =>
            npResolveIdx (arr.set j0 v0).length p.1 ≠
            npResolveIdx (arr.set j0 v0).length q.1) := by
          simpa [List.length_set] using hpw.2
        exact ih (arr.set j0 v0) m i v j h hmem'
          (by rw [List.length_set]; exact hres) hpw'



theorem mapOpt_eq_map {α β : Type} (f : α → Option β) (g : α → β) :
    ∀ (l : List α), (∀ x ∈ l, f x = some (g x)) →
      mapOpt f l = some (l.map g) := by
  intro l
  induction l with
  | nil => intro _; rfl
  | cons x xs ih =>
    intro hall
    have hx := hall x (List.mem_cons_self _ _)
    have hxs := ih (fun y hy => hall y (List.mem_cons_of_mem _ hy))
    simp only [mapOpt, hx, hxs, List.map]

theorem npFancyGet_eq_map {α : Type} (arr : List α) (d : α)
    (idxs : List Int) (h : ∀ i ∈ idxs, 0 ≤ i ∧ i < (arr.length : Int)) :
    npFancyGet arr d idxs = some (idxs.map (fun i => arr.getD i.toNat d)) := by
  apply mapOpt_eq_map
  intro i hi
  rw [npResolveIdx_of_range (h i hi).1 (h i hi).2]
  rfl

theorem zip_getElem? {α β : Type} :
    ∀ (l1 : List α) (l2 : List β) (i : Nat) (a : α) (b : β),
      l1[i]? = some a → l2[i]? = some b → (l1.zip l2)[i]? = some (a, b) := by
  intro l1 l2 i a b h1 h2
  exact List.getElem?_zip_eq_some.2 ⟨h1, h2⟩

theorem pairwise_zip_left {α β : Type} (R : α → α → Prop) :
    ∀ (l1 : List α) (l2 : List β), l1.Pairwise R →
      (l1.zip l2).Pairwise (fun p q => R p.1 q.1) := by
  intro l1
  induction l1 with
  | nil => intro l2 _; simp
  | cons x xs ih =>
    intro l2 hp
    cases l2 with
    | nil => simp
    | cons y ys =>
      rw [List.pairwise_cons] at hp
      rw [List.zip_cons_cons, List.pairwise_cons]
      constructor
      · intro q hq
        exact hp.1 q.1 (List.of_mem_zip hq).1
      · exact ih ys hp.2

/-- Core behaviour of numpy fancy assignment into a constant array, for an
in-range, strictly sorted index list: it succeeds, the targeted positions
receive the corresponding values and every other position keeps the
constant. -/
theorem npFancySet_replicate_spec {α : Type} (n : Nat) (d : α)
    (A : List Int) (vals : List α)
    (hlen : A.length = vals.length)
    (hr : ∀ a ∈ A, 0 ≤ a ∧ a < (n : Int))
    (hs : A.Pairwise (· < ·)) :
    ∃ m, npFancySet (List.replicate n d) A vals = some m ∧
      m.length = n ∧
      (∀ (i : Nat) (a : Int) (v : α), A[i]? = some a → vals[i]? = some v →
        m[a.toNat]? = some v) ∧
      (∀ s : Nat, s < n → ((s : Int) ∉ A) → m[s]? = some d) := by
  have hlenrep : (List.replicate n d).length = n := List.length_replicate _ _
  have hres : ∀ a ∈ A, npResolveIdx (List.replicate n d).length a = some a.toNat := by
    intro a ha
    rw [hlenrep]
    exact npResolveIdx_of_range (hr a ha).1 (hr a ha).2
  have hvalid : ∀ p ∈ A.zip vals,
      (npResolveIdx (List.replicate n d).length p.1).isSome := by
    intro p hp
    rw [hres p.1 (List.of_mem_zip hp).1]
    rfl
  obtain ⟨m, hm⟩ := npSetPairs_some (A.zip vals) (List.replicate n d) hvalid
  have hpwA : A.Pairwise (fun a b =>
      npResolveIdx (List.replicate n d).length a ≠
      npResolveIdx (List.replicate n d).length b) := by
    apply List.Pairwise.imp_of_mem _ hs
    intro a b ha hb hlt
    rw [hres a ha, hres b hb]
    intro hcon
    injection hcon with hcon'
    have ha0 := (hr a ha).1
    have hb0 := (hr b hb).1
    omega
  have hpw : (A.zip vals).Pairwise (fun p q =>
      npResolveIdx (List.replicate n d).length p.1 ≠
      npResolveIdx (List.replicate n d).length q.1) :=
    pairwise_zip_left _ A vals hpwA
  refine ⟨m, ?_, ?_, ?_, ?_⟩
  · rw [npFancySet, if_pos hlen]
    exact hm
  · rw [npSetPairs_length _ _ _ hm, hlenrep]
  · intro i a v hA hv
    have hzip : (A.zip vals)[i]? = some (a, v) := zip_getElem? A vals i a v hA hv
    have hmem : (a, v) ∈ A.zip vals := List.getElem?_mem hzip
    have haA : a ∈ A := (List.of_mem_zip hmem).1
    exact npSetPairs_written (A.zip vals) (List.replicate n d) m a v a.toNat
      hm hmem (hres a haA) hpw
  · intro s hsn hnot
    have havoid : ∀ p ∈ A.zip vals,
        npResolveIdx (List.replicate n d).length p.1 ≠ some s := by
      intro p hp hcon
      have hpA := (List.of_mem_zip hp).1
      rw [hres p.1 hpA] at hcon
      injection hcon with hcon'
      have h0 := (hr p.1 hpA).1
      have : p.1 = (s : Int) := by omega
      rw [this] at hpA
      exact hnot hpA
    rw [npSetPairs_untouched (A.zip vals) (List.replicate n d) m s hm havoid]
    exact List.getElem?_replicate_of_lt hsn

theorem full2active_props (n : Nat) (A : List Int)
    (hr : ∀ a ∈ A, 0 ≤ a ∧ a < (n : Int))
    (hs : A.Pairwise (· < ·)) :
    ∃ f, full2active n A = some f ∧ f.length = n ∧
      (∀ (i : Nat) (a : Int), A[i]? = some a → f[a.toNat]? = some (Int.ofNat i)) ∧
      (∀ s : Nat, s < n → ((s : Int) ∉ A) → f[s]? = some (-1)) := by
  obtain ⟨f, h1, h2, h3, h4⟩ := npFancySet_replicate_spec n (-1) A
    ((List.range A.length).map Int.ofNat) (by simp) hr hs
  refine ⟨f, h1, h2, ?_, h4⟩
  intro i a hA
  have hi : i < A.length := by
    rcases List.getElem?_eq_some.1 hA with ⟨h, _⟩
    exact h
  apply h3 i a _ hA
  rw [List.getElem?_map, List.getElem?_range hi]
  rfl

theorem full2active_oob (n : Nat) (A : List Int) (a : Int) (ha : a ∈ A)
    (hout : a < -(n : Int) ∨ (n : Int) ≤ a) :
    full2active n A = none := by
  rw [full2active, npFancySet, if_pos (by simp)]
  obtain ⟨i, hi⟩ := List.mem_iff_getElem?.1 ha
  have hilt : i < A.length := by
    rcases List.getElem?_eq_some.1 hi with ⟨h, _⟩
    exact h
  have hv : ((List.range A.length).map Int.ofNat)[i]? = some (Int.ofNat i) := by
    rw [List.getElem?_map, List.getElem?_range hilt]
    rfl
  have hp : (a, Int.ofNat i) ∈ A.zip ((List.range A.length).map Int.ofNat) :=
    List.getElem?_mem (zip_getElem? _ _ i _ _ hi hv)
  apply npSetPairs_none _ _ _ hp
  rw [List.length_replicate]
  unfold npResolveIdx
  rw [if_neg (by omega), if_neg (by omega)]

/-- C3: for a consistent active set (in-range, strictly increasing labels)
the constructed full→active map sends `active_set[i]` to `i` for every
position `i` and every label outside the active set to the sentinel `-1`;
in particular, the active set `[0, 2, 4]` in a full space of 5 states gives
the map `[0, -1, 1, -1, 2]`. -/
theorem full2active_map_invariant (n : Nat) (A : List Int)
    (hr : ∀ a ∈ A, 0 ≤ a ∧ a < (n : Int))
    (hs : A.Pairwise (· < ·)) :
    (∃ f, full2active n A = some f ∧
      (∀ (i : Nat) (a : Int), A[i]? = some a → f[a.toNat]? = some (Int.ofNat i)) ∧
      (∀ s : Nat, s < n → ((s : Int) ∉ A) → f[s]? = some (-1))) ∧
    full2active 5 [0, 2, 4] = some [0, -1, 1, -1, 2] := by
  constructor
  · obtain ⟨f, h1, _, h3, h4⟩ := full2active_props n A hr hs
    exact ⟨f, h1, h3, h4⟩
  · decide

/-- Witness for `full2active_map_invariant` at the concrete scenario of the
claim. -/
theorem full2active_map_invariant_witness :
    (∃ f, full2active 5 [0, 2, 4] = some f ∧
      (∀ (i : Nat) (a : Int), ([0, 2, 4] : List Int)[i]? = some a →
        f[a.toNat]? = some (Int.ofNat i)) ∧
      (∀ s : Nat, s < 5 → ((s : Int) ∉ ([0, 2, 4] : List Int)) →
        f[s]? = some (-1))) ∧
    full2active 5 [0, 2, 4] = some [0, -1, 1, -1, 2] :=
  full2active_map_invariant 5 [0, 2, 4] (by decide) (by decide)

/-- C5 counterexample: the active-set label `-1` is outside the full label
space `{0, 1}` of a 2-state model, yet building the full→active map does not
fail — numpy wraps the negative index, silently producing the map `[-1, 0]`. -/
theorem full2active_negative_label_no_error :
    ¬ (0 ≤ (-1 : Int) ∧ (-1 : Int) < (2 : Int)) ∧
    full2active 2 [-1] = some [-1, 0] := by decide

/-- C5 amended: building the full→active map fails (numpy `IndexError`, the
spec's `InvalidStateError`) whenever some active-set label is `≥ nstates_full`
or `< -nstates_full`; labels in `[-nstates_full, -1]` instead wrap without an
error (see the counterexample). -/
theorem full2active_fails_out_of_bounds (n : Nat) (A : List Int)
    (h : ∃ a ∈ A, a < -(n : Int) ∨ (n : Int) ≤ a) :
    full2active n A = none := by
  obtain ⟨a, ha, hout⟩ := h
  exact full2active_oob n A a ha hout

/-- Witness for `full2active_fails_out_of_bounds`: label 5 in a 2-state full
space. -/
theorem full2active_fails_out_of_bounds_witness :
    (∃ a ∈ ([5] : List Int), a < -(2 : Int) ∨ (2 : Int) ≤ a) ∧
    full2active 2 [5] = none :=
  ⟨⟨5, by decide, by decide⟩,
   full2active_fails_out_of_bounds 2 [5] ⟨5, by decide, by decide⟩⟩

/-- A model whose `C_active` argument is not the active-set restriction of
its `C_full` argument; the constructor accepts it unchanged. -/
def mdlC4 : EstimatedMSM :=
  { nstates_full := 2, active_set := [0], dtrajs_full := [[0]],
    connected_sets := [[0]], C_full := [[1, 2], [3, 4]], C_active := [[5]],
    transition_matrix := [[1]], stationary_distribution := [1],
    full2activeMap := [0, -1], asiCache := none }

/-- C4 counterexample: the constructor does not enforce the claimed
invariant — it stores whatever `C_active` it is given, so a constructed
model can have `count_matrix_active ≠ submatrix(count_matrix_full,
active_set)`. -/
theorem count_matrix_active_not_restriction :
    mkEstimatedMSM [[0]] [0] [[0]] [[1, 2], [3, 4]] [[5]] [[1]] [1] =
      some mdlC4 ∧
    count_matrix_active mdlC4 ≠
      submatrixSpec (count_matrix_full mdlC4) mdlC4.active_set := by
  constructor
  · simp [mkEstimatedMSM, full2active, npFancySet, npSetPairs, npResolveIdx,
      mdlC4]
  · norm_num [count_matrix_active, count_matrix_full, submatrixSpec, mdlC4]

/-- C4 amended: `count_matrix_active` equals the active-set restriction of
`count_matrix_full` for every model whose constructor was given a
consistent pair (the constructor itself stores both matrices verbatim and
enforces nothing). -/
theorem count_matrix_active_restriction_of_consistent
    (dtrajs : List (List Int)) (A : List Int) (conn : List (List Int))
    (Cf Ca T : Mat) (sd : List ℚ) (m : EstimatedMSM)
    (hcons : Ca = submatrixSpec Cf A)
    (hmk : mkEstimatedMSM dtrajs A conn Cf Ca T sd = some m) :
    count_matrix_active m = submatrixSpec (count_matrix_full m) m.active_set := by
  unfold mkEstimatedMSM at hmk
  cases hfa : full2active Cf.length A with
  | none => rw [hfa] at hmk; cases hmk
  | some f =>
    rw [hfa] at hmk
    injection hmk with hm
    subst hm
    simpa [count_matrix_active, count_matrix_full] using hcons

/-- A model constructed from a consistent count-matrix pair. -/
def mdlC4c : EstimatedMSM :=
  { nstates_full := 2, active_set := [0], dtrajs_full := [[0]],
    connected_sets := [[0]], C_full := [[1, 2], [3, 4]], C_active := [[1]],
    transition_matrix := [[1]], stationary_distribution := [1],
    full2activeMap := [0, -1], asiCache := none }

/-- Witness for `count_matrix_active_restriction_of_consistent`. -/
theorem count_matrix_active_restriction_of_consistent_witness :
    ([[1]] : Mat) = submatrixSpec [[1, 2], [3, 4]] [0] ∧
    mkEstimatedMSM [[0]] [0] [[0]] [[1, 2], [3, 4]] [[1]] [[1]] [1] =
      some mdlC4c ∧
    count_matrix_active mdlC4c =
      submatrixSpec (count_matrix_full mdlC4c) mdlC4c.active_set := by
  have hcons : ([[1]] : Mat) = submatrixSpec [[1, 2], [3, 4]] [0] := by
    norm_num [submatrixSpec]
  have hmk : mkEstimatedMSM [[0]] [0] [[0]] [[1, 2], [3, 4]] [[1]] [[1]] [1] =
      some mdlC4c := by
    simp [mkEstimatedMSM, full2active, npFancySet, npSetPairs, npResolveIdx,
      mdlC4c]
  exact ⟨hcons, hmk,
    count_matrix_active_restriction_of_consistent [[0]] [0] [[0]]
      [[1, 2], [3, 4]] [[1]] [[1]] [1] mdlC4c hcons hmk⟩

/-- C8: accessing `active_state_indexes` twice yields equal-by-value tables,
and the second access leaves the model (hence the cache) unchanged: the
table is computed on the first access, cached, and never invalidated. -/
theorem active_state_indexes_idempotent (m : EstimatedMSM) :
    (active_state_indexes (active_state_indexes m).2).1 =
      (active_state_indexes m).1 ∧
    (active_state_indexes (active_state_indexes m).2).2 =
      (active_state_indexes m).2 := by
  cases hc : m.asiCache with
  | some t => simp [active_state_indexes, hc]
  | none => simp [active_state_indexes, hc]

theorem npSumList_some (W : List (List ℚ)) (T : Nat)
    (h : ∀ w ∈ W, w.length = T) :
    npSumList W = some ((W.map List.sum).sum) := by
  unfold npSumList
  rw [if_pos]
  cases W with
  | nil => left; simp
  | cons w ws =>
    right
    rw [List.all_eq_true]
    intro x hx
    have hxT := h x hx
    have hwT := h w (List.mem_cons_self _ _)
    simp [hxT, hwT]

theorem twLoop_some (sdf : List ℚ) (T : Nat) (dtrajs : List (List Int)) :
    ∀ (W0 : List (List ℚ)) (t0 : ℚ),
      (∀ tr ∈ dtrajs, ∀ i ∈ tr, 0 ≤ i ∧ i < (sdf.length : Int)) →
      (∀ tr ∈ dtrajs, tr.length = T) →
      (∀ w ∈ W0, w.length = T) →
      ∃ t, twLoop sdf dtrajs W0 t0 =
        some (W0 ++ dtrajs.map (fun tr => tr.map (fun i => sdf.getD i.toNat 0)),
              t) := by
  induction dtrajs with
  | nil =>
    intro W0 t0 _ _ _
    exact ⟨t0, by simp [twLoop]⟩
  | cons d rest ih =>
    intro W0 t0 hidx hlen hW
    have hget : npFancyGet sdf 0 d =
        some (d.map (fun i => sdf.getD i.toNat 0)) :=
      npFancyGet_eq_map sdf 0 d (hidx d (List.mem_cons_self _ _))
    have hwlen : (d.map (fun i => sdf.getD i.toNat 0)).length = T := by
      rw [List.length_map]
      exact hlen d (List.mem_cons_self _ _)
    have hW' : ∀ w ∈ W0 ++ [d.map (fun i => sdf.getD i.toNat 0)],
        w.length = T := by
      intro w hw
      rcases List.mem_append.1 hw with h | h
      · exact hW w h
      · rw [List.mem_singleton.1 h]
        exact hwlen
    have hsum := npSumList_some (W0 ++ [d.map (fun i => sdf.getD i.toNat 0)])
      T hW'
    obtain ⟨t, ht⟩ := ih (W0 ++ [d.map (fun i => sdf.getD i.toNat 0)])
      (t0 + ((W0 ++ [d.map (fun i => sdf.getD i.toNat 0)]).map List.sum).sum)
      (fun tr htr => hidx tr (List.mem_cons_of_mem _ htr))
      (fun tr htr => hlen tr (List.mem_cons_of_mem _ htr)) hW'
    refine ⟨t, ?_⟩
    simp only [twLoop, hget, hsum, ht]
    rw [List.append_assoc, List.singleton_append, List.map_cons]

/-- Full characterization of `trajectory_weights` on a well-formed model:
the expanded stationary distribution `sdf` is produced by the scatter, zero
at every full-space label outside the active set, and the result divides
each frame's `sdf` value by the (single) accumulated total. -/
theorem trajectory_weights_spec (m : EstimatedMSM) (T : Nat)
    (hrA : ∀ a ∈ m.active_set, 0 ≤ a ∧ a < (m.nstates_full : Int))
    (hsA : m.active_set.Pairwise (· < ·))
    (hlen : m.active_set.length = m.stationary_distribution.length)
    (htraj : ∀ tr ∈ m.dtrajs_full, tr.length = T)
    (hidx : ∀ tr ∈ m.dtrajs_full, ∀ i ∈ tr, 0 ≤ i ∧ i < (m.nstates_full : Int)) :
    ∃ sdf wtot,
      npFancySet (List.replicate m.nstates_full (0 : ℚ)) m.active_set
        m.stationary_distribution = some sdf ∧
      sdf.length = m.nstates_full ∧
      (∀ s : Nat, s < m.nstates_full → ((s : Int) ∉ m.active_set) →
        sdf[s]? = some 0) ∧
      trajectory_weights m =
        some (m.dtrajs_full.map (fun tr =>
          tr.map (fun i => sdf.getD i.toNat 0 / wtot))) := by
  obtain ⟨sdf, h1, h2, _, h4⟩ := npFancySet_replicate_spec m.nstates_full
    (0 : ℚ) m.active_set m.stationary_distribution hlen hrA hsA
  have hidx' : ∀ tr ∈ m.dtrajs_full, ∀ i ∈ tr, 0 ≤ i ∧ i < (sdf.length : Int) := by
    intro tr htr i hi
    rw [h2]
    exact hidx tr htr i hi
  obtain ⟨wtot, hloop⟩ := twLoop_some sdf T m.dtrajs_full [] 0
    hidx' htraj (by intro w hw; cases hw)
  rw [List.nil_append] at hloop
  refine ⟨sdf, wtot, h1, h2, h4, ?_⟩
  unfold trajectory_weights
  rw [h1]
  simp only [hloop, Option.some.injEq]
  rw [List.map_map]
  apply List.map_congr_left
  intro tr _
  rw [Function.comp_apply, List.map_map]
  rfl

/-- A well-formed 2-state model with two trajectories of one frame each,
uniform stationary distribution: the simplest input on which the weight
normalization of `trajectory_weights` is observable. -/
def mdl1 : EstimatedMSM :=
  { nstates_full := 2, active_set := [0, 1], dtrajs_full := [[0], [1]],
    connected_sets := [[0, 1]], C_full := [[1, 1], [1, 1]],
    C_active := [[1, 1], [1, 1]],
    transition_matrix := [[1/2, 1/2], [1/2, 1/2]],
    stationary_distribution := [1/2, 1/2],
    full2activeMap := [0, 1], asiCache := none }

/-- C1: evaluation of `trajectory_weights` at the failing input.  The loop
adds `np.sum(W)` — the total over every trajectory appended so far — to
`wtot` at each iteration instead of `np.sum(w)`, so the divisor is 3/2
rather than 1 and the returned weights sum to 2/3, not 1 (the function's
own docstring asserts the sum is 1). -/
theorem trajectory_weights_sum_not_one :
    mkEstimatedMSM [[0], [1]] [0, 1] [[0, 1]] [[1, 1], [1, 1]]
      [[1, 1], [1, 1]] [[1/2, 1/2], [1/2, 1/2]] [1/2, 1/2] = some mdl1 ∧
    trajectory_weights mdl1 = some [[1/3], [1/3]] ∧
    totalWeight [[1/3], [1/3]] = 2/3 ∧
    ¬ (|totalWeight [[1/3], [1/3]] - 1| ≤ 1 / 1000000000) := by
  refine ⟨?_, ?_, ?_, ?_⟩
  · simp [mkEstimatedMSM, full2active, npFancySet, npSetPairs, npResolveIdx,
      mdl1]
  · norm_num [trajectory_weights, mdl1, npFancySet, npSetPairs, npResolveIdx,
      npFancyGet, mapOpt, npSumList, twLoop]
  · norm_num [totalWeight]
  · intro h
    rw [abs_le] at h
    norm_num [totalWeight] at h

/-- A well-formed model in which the only observed state (full label 1) is
outside the active set, so every unnormalized frame weight — and hence the
grand total — is zero. -/
def mdl0 : EstimatedMSM :=
  { nstates_full := 2, active_set := [0], dtrajs_full := [[1]],
    connected_sets := [[0], [1]], C_full := [[1, 0], [0, 1]],
    C_active := [[1]], transition_matrix := [[1]],
    stationary_distribution := [1],
    full2activeMap := [0, -1], asiCache := none }

/-- C2 counterexample: on `mdl0` the accumulated grand total is 0, yet
`trajectory_weights` performs its division and returns a result — no
`DegenerateWeightsError` (nor any other error) is raised. -/
theorem trajectory_weights_zero_total_no_error :
    npFancySet (List.replicate mdl0.nstates_full (0 : ℚ)) mdl0.active_set
      mdl0.stationary_distribution = some [1, 0] ∧
    twLoop [1, 0] mdl0.dtrajs_full [] 0 = some ([[0]], 0) ∧
    trajectory_weights mdl0 = some [[0]] := by
  refine ⟨?_, ?_, ?_⟩
  · norm_num [mdl0, npFancySet, npSetPairs, npResolveIdx, List.replicate_succ]
  · norm_num [mdl0, twLoop, npFancyGet, mapOpt, npResolveIdx, npSumList]
  · norm_num [trajectory_weights, mdl0, npFancySet, npSetPairs, npResolveIdx,
      npFancyGet, mapOpt, npSumList, twLoop]

/-- C2 amended: when the accumulated grand total is zero the code has no
guard — `trajectory_weights` performs the division by zero anyway and
returns one (degenerate) weight array per trajectory instead of failing. -/
theorem trajectory_weights_no_degenerate_guard (m : EstimatedMSM)
    (sdf : List ℚ) (W : List (List ℚ)) (wtot : ℚ)
    (h1 : npFancySet (List.replicate m.nstates_full (0 : ℚ)) m.active_set
      m.stationary_distribution = some sdf)
    (h2 : twLoop sdf m.dtrajs_full [] 0 = some (W, wtot))
    (h0 : wtot = 0) :
    trajectory_weights m =
      some (W.map (fun w => w.map (fun x => x / 0))) := by
  unfold trajectory_weights
  rw [h1]
  simp only [h2, h0]

/-- Witness for `trajectory_weights_no_degenerate_guard` at `mdl0`. -/
theorem trajectory_weights_no_degenerate_guard_witness :
    trajectory_weights mdl0 = some [[0]] := by
  have h1 : npFancySet (List.replicate mdl0.nstates_full (0 : ℚ))
      mdl0.active_set mdl0.stationary_distribution = some [1, 0] := by
    norm_num [mdl0, npFancySet, npSetPairs, npResolveIdx, List.replicate_succ]
  have h2 : twLoop [1, 0] mdl0.dtrajs_full [] 0 = some ([[0]], 0) := by
    norm_num [mdl0, twLoop, npFancyGet, mapOpt, npResolveIdx, npSumList]
  have := trajectory_weights_no_degenerate_guard mdl0 [1, 0] [[0]] 0 h1 h2 rfl
  rw [this]
  norm_num

/-- C7: in the output of `trajectory_weights`, every frame whose full-space
label is outside the active set receives weight exactly 0 (its expanded
stationary probability is the scatter's untouched 0, and 0 divided by the
grand total is 0 — in exact arithmetic this holds even for a zero total). -/
theorem trajectory_weights_unmapped_frames_zero (m : EstimatedMSM) (T : Nat)
    (hrA : ∀ a ∈ m.active_set, 0 ≤ a ∧ a < (m.nstates_full : Int))
    (hsA : m.active_set.Pairwise (· < ·))
    (hlen : m.active_set.length = m.stationary_distribution.length)
    (htraj : ∀ tr ∈ m.dtrajs_full, tr.length = T)
    (hidx : ∀ tr ∈ m.dtrajs_full, ∀ i ∈ tr, 0 ≤ i ∧ i < (m.nstates_full : Int)) :
    ∃ W, trajectory_weights m = some W ∧
      W.length = m.dtrajs_full.length ∧
      ∀ (iT t : Nat) (tr : List Int) (w : List ℚ) (l : Int),
        m.dtrajs_full[iT]? = some tr → W[iT]? = some w →
        tr[t]? = some l → l ∉ m.active_set →
        w.length = tr.length ∧ w[t]? = some 0 := by
  obtain ⟨sdf, wtot, hscat, hslen, hzero, htw⟩ :=
    trajectory_weights_spec m T hrA hsA hlen htraj hidx
  refine ⟨_, htw, by rw [List.length_map], ?_⟩
  intro iT t tr w l hdt hW htr hnot
  have hWi : (m.dtrajs_full.map (fun tr =>
      tr.map (fun i => sdf.getD i.toNat 0 / wtot)))[iT]? =
      some (tr.map (fun i => sdf.getD i.toNat 0 / wtot)) := by
    rw [List.getElem?_map, hdt]
    rfl
  rw [hWi] at hW
  injection hW with hw
  subst hw
  have hmemtr : tr ∈ m.dtrajs_full := List.getElem?_mem hdt
  have hl : l ∈ tr := List.getElem?_mem htr
  have hrange := hidx tr hmemtr l hl
  have hlt : l.toNat < m.nstates_full := by omega
  have hcast : ((l.toNat : Int)) = l := Int.toNat_of_nonneg hrange.1
  have hnotn : ((l.toNat : Nat) : Int) ∉ m.active_set := by
    rw [hcast]
    exact hnot
  have hsd : sdf.getD l.toNat 0 = 0 := by
    rw [List.getD_eq_getElem?_getD, hzero l.toNat hlt hnotn]
    rfl
  constructor
  · rw [List.length_map]
  · rw [List.getElem?_map, htr, Option.map_some']
    congr 1
    rw [hsd]
    exact zero_div _

/-- Witness for `trajectory_weights_unmapped_frames_zero` at `mdl0` (its
single frame has label 1, outside the active set `[0]`). -/
theorem trajectory_weights_unmapped_frames_zero_witness :
    ∃ W, trajectory_weights mdl0 = some W ∧
      W.length = mdl0.dtrajs_full.length ∧
      ∀ (iT t : Nat) (tr : List Int) (w : List ℚ) (l : Int),
        mdl0.dtrajs_full[iT]? = some tr → W[iT]? = some w →
        tr[t]? = some l → l ∉ mdl0.active_set →
        w.length = tr.length ∧ w[t]? = some 0 :=
  trajectory_weights_unmapped_frames_zero mdl0 1 (by decide) (by decide)
    (by decide) (by decide) (by decide)

/-- C9: `discrete_trajectories_active` returns one array per stored full
trajectory, in order and with the same per-trajectory lengths, each entry
being the full→active map applied to the corresponding full entry — hence
the active-space index of the frame's label when it is in the active set
and `-1` otherwise. -/
theorem discrete_trajectories_active_spec
    (dtrajs : List (List Int)) (A : List Int) (conn : List (List Int))
    (Cf Ca T : Mat) (sd : List ℚ) (m : EstimatedMSM)
    (hmk : mkEstimatedMSM dtrajs A conn Cf Ca T sd = some m)
    (hrA : ∀ a ∈ A, 0 ≤ a ∧ a < (Cf.length : Int))
    (hsA : A.Pairwise (· < ·))
    (hidx : ∀ tr ∈ dtrajs, ∀ l ∈ tr, 0 ≤ l ∧ l < (Cf.length : Int)) :
    ∃ D, discrete_trajectories_active m = some D ∧
      D.length = dtrajs.length ∧
      ∀ (i : Nat) (tr : List Int), dtrajs[i]? = some tr →
        ∃ d, D[i]? = some d ∧ d.length = tr.length ∧
          ∀ (t : Nat) (l : Int), tr[t]? = some l →
            d[t]? = m.full2activeMap[l.toNat]? ∧
            (l ∉ A → d[t]? = some (-1)) ∧
            (∀ k : Nat, A[k]? = some l → d[t]? = some (Int.ofNat k)) := by
  obtain ⟨f, hfa, hflen, hmap, hunmapped⟩ := full2active_props Cf.length A hrA hsA
  unfold mkEstimatedMSM at hmk
  rw [hfa] at hmk
  injection hmk with hm
  subst hm
  simp only [discrete_trajectories_active]
  have hone : ∀ tr ∈ dtrajs, npFancyGet f 0 tr =
      some (tr.map (fun l => f.getD l.toNat 0)) := by
    intro tr htr
    apply npFancyGet_eq_map
    intro l hl
    rw [hflen]
    exact hidx tr htr l hl
  have hD := mapOpt_eq_map (npFancyGet f 0)
    (fun tr => tr.map (fun l => f.getD l.toNat 0)) dtrajs hone
  refine ⟨_, hD, by rw [List.length_map], ?_⟩
  intro i tr hdt
  refine ⟨tr.map (fun l => f.getD l.toNat 0), ?_, by rw [List.length_map], ?_⟩
  · rw [List.getElem?_map, hdt]
    rfl
  · intro t l htl
    have hmemtr : tr ∈ dtrajs := List.getElem?_mem hdt
    have hl : l ∈ tr := List.getElem?_mem htl
    have hrange := hidx tr hmemtr l hl
    have hlt : l.toNat < f.length := by rw [hflen]; omega
    have hcast : ((l.toNat : Nat) : Int) = l := Int.toNat_of_nonneg hrange.1
    have hdval : (tr.map (fun l => f.getD l.toNat 0))[t]? =
        some (f.getD l.toNat 0) := by
      rw [List.getElem?_map, htl]
      rfl
    have hgetD : f.getD l.toNat 0 = f[l.toNat] := by
      rw [List.getD_eq_getElem?_getD, List.getElem?_eq_getElem hlt]
      rfl
    refine ⟨?_, ?_, ?_⟩
    · rw [hdval, hgetD, List.getElem?_eq_getElem hlt]
    · intro hnot
      rw [hdval, hgetD]
      have := hunmapped l.toNat (by rw [← hflen]; exact hlt)
        (by rw [hcast]; exact hnot)
      rw [List.getElem?_eq_getElem hlt] at this
      injection this with h
      rw [h]
    · intro k hk
      rw [hdval, hgetD]
      have := hmap k l hk
      rw [List.getElem?_eq_getElem hlt] at this
      injection this with h
      rw [h]

/-- A model whose single trajectory `[0, 1]` has one active frame (label 0,
active index 0) and one frame outside the active set `[0]`. -/
def mdl9 : EstimatedMSM :=
  { nstates_full := 2, active_set := [0], dtrajs_full := [[0, 1]],
    connected_sets := [[0], [1]], C_full := [[1, 0], [0, 1]],
    C_active := [[1]], transition_matrix := [[1]],
    stationary_distribution := [1],
    full2activeMap := [0, -1], asiCache := none }

/-- Witness for `discrete_trajectories_active_spec` at `mdl9`. -/
theorem discrete_trajectories_active_spec_witness :
    ∃ D, discrete_trajectories_active mdl9 = some D ∧
      D.length = ([[0, 1]] : List (List Int)).length ∧
      ∀ (i : Nat) (tr : List Int), ([[0, 1]] : List (List Int))[i]? = some tr →
        ∃ d, D[i]? = some d ∧ d.length = tr.length ∧
          ∀ (t : Nat) (l : Int), tr[t]? = some l →
            d[t]? = mdl9.full2activeMap[l.toNat]? ∧
            (l ∉ ([0] : List Int) → d[t]? = some (-1)) ∧
            (∀ k : Nat, ([0] : List Int)[k]? = some l →
              d[t]? = some (Int.ofNat k)) :=
  discrete_trajectories_active_spec [[0, 1]] [0] [[0], [1]]
    [[1, 0], [0, 1]] [[1]] [[1]] [1] mdl9
    (by simp [mkEstimatedMSM, full2active, npFancySet, npSetPairs,
      npResolveIdx, mdl9])
    (by decide) (by decide) (by decide)

theorem foldl_max_le (ys : List ℚ) :
    ∀ (y c : ℚ), y ≤ c → (∀ z ∈ ys, z ≤ c) → ys.foldl max y ≤ c := by
  induction ys with
  | nil =>
    intro y c h _
    simpa using h
  | cons z zs ih =>
    intro y c hy hall
    rw [List.foldl_cons]
    exact ih (max y z) c (max_le hy (hall z (List.mem_cons_self _ _)))
      (fun w hw => hall w (List.mem_cons_of_mem _ hw))

theorem le_foldl_min (ys : List ℚ) :
    ∀ (y c : ℚ), c ≤ y → (∀ z ∈ ys, c ≤ z) → c ≤ ys.foldl min y := by
  induction ys with
  | nil =>
    intro y c h _
    simpa using h
  | cons z zs ih =>
    intro y c hy hall
    rw [List.foldl_cons]
    exact ih (min y z) c (le_min hy (hall z (List.mem_cons_self _ _)))
      (fun w hw => hall w (List.mem_cons_of_mem _ hw))

theorem ciLower_le_mean (xs : List ℚ) : ciLower xs ≤ sampleMean xs := by
  cases hf : xs.filter (fun x => decide (x ≤ sampleMean xs)) with
  | nil => simp [ciLower, hf]
  | cons y ys =>
    have hally : ∀ z ∈ y :: ys, z ≤ sampleMean xs := by
      intro z hz
      rw [← hf] at hz
      exact of_decide_eq_true (List.mem_filter.1 hz).2
    simp only [ciLower, hf]
    exact foldl_max_le ys y _ (hally y (List.mem_cons_self _ _))
      (fun z hz => hally z (List.mem_cons_of_mem _ hz))

theorem mean_le_ciUpper (xs : List ℚ) : sampleMean xs ≤ ciUpper xs := by
  cases hf : xs.filter (fun x => decide (sampleMean xs ≤ x)) with
  | nil => simp [ciUpper, hf]
  | cons y ys =>
    have hally : ∀ z ∈ y :: ys, sampleMean xs ≤ z := by
      intro z hz
      rw [← hf] at hz
      exact of_decide_eq_true (List.mem_filter.1 hz).2
    simp only [ciUpper, hf]
    exact le_foldl_min ys y _ (hally y (List.mem_cons_self _ _))
      (fun z hz => hally z (List.mem_cons_of_mem _ hz))

theorem sampleVarU_nonneg (xs : List ℚ) : 0 ≤ sampleVarU xs := by
  have hnum : 0 ≤ (xs.map (fun x => (x - sampleMean xs) ^ 2)).sum := by
    apply List.sum_nonneg
    intro x hx
    obtain ⟨y, _, hy⟩ := List.mem_map.1 hx
    rw [← hy]
    exact sq_nonneg _
  cases xs with
  | nil => simp [sampleVarU]
  | cons z zs =>
    apply div_nonneg hnum
    rw [List.length_cons]
    push_cast
    linarith [Nat.cast_nonneg (α := ℚ) zs.length]

/-- C6: for every ensemble and every (vector-valued) functional, the
confidence bounds of the spec's order-statistic construction bracket the
elementwise mean, and the sample variance — the square of the sample
standard deviation — is non-negative elementwise. -/
theorem ensemble_stats_bracket_and_nonneg {μ : Type} (E : List μ)
    (f : μ → List ℚ) (k : Nat) :
    ciLower (coordSamples (sampleValues E f) k) ≤
      sampleMean (coordSamples (sampleValues E f) k) ∧
    sampleMean (coordSamples (sampleValues E f) k) ≤
      ciUpper (coordSamples (sampleValues E f) k) ∧
    0 ≤ sampleVarU (coordSamples (sampleValues E f) k) :=
  ⟨ciLower_le_mean _, mean_le_ciUpper _, sampleVarU_nonneg _⟩

theorem heapRead_append_left {α : Type} (d : α) (h ext : List α) (a : Nat)
    (ha : a < h.length) : heapRead d (h ++ ext) a = heapRead d h a := by
  unfold heapRead
  rw [List.getD_eq_getElem?_getD, List.getD_eq_getElem?_getD,
    List.getElem?_append_left ha]

theorem heapRead_append_right {α : Type} (d : α) (h ext : List α) (k : Nat) :
    heapRead d (h ++ ext) (h.length + k) = heapRead d ext k := by
  unfold heapRead
  rw [List.getD_eq_getElem?_getD, List.getD_eq_getElem?_getD,
    List.getElem?_append_right (by omega)]
  have hk : h.length + k - h.length = k := by omega
  rw [hk]

theorem heapRead_write_ne {α : Type} (d : α) (h : List α) (a : Nat) (v : α)
    (k : Nat) (hne : a ≠ k) :
    heapRead d (heapWrite h a v) k = heapRead d h k := by
  unfold heapRead heapWrite
  rw [List.getD_eq_getElem?_getD, List.getD_eq_getElem?_getD,
    List.getElem?_set_ne hne]

theorem heapRead_block {α : Type} (d : α) (base frag rest : List α) (k : Nat)
    (hk : k < frag.length) :
    heapRead d ((base ++ frag) ++ rest) (base.length + k) =
      heapRead d frag k := by
  rw [heapRead_append_left d (base ++ frag) rest _
    (by rw [List.length_append]; omega)]
  exact heapRead_append_right d base frag k

theorem heapRead_single {α : Type} (d x : α) : heapRead d [x] 0 = x := rfl

theorem heapRead_map_cell {α : Type} (d : α) (g : Nat → α) (addrs : List Nat)
    (i : Nat) (hi : i < addrs.length) :
    heapRead d (addrs.map g) i = g addrs[i] := by
  unfold heapRead
  rw [List.getD_eq_getElem?_getD, List.getElem?_map,
    List.getElem?_eq_getElem hi]
  rfl

/-- C10: the constructor stores deep copies of its array arguments, so a
constructed model is isolated from them: overwriting any heap cell that
existed before construction — in particular every cell the caller passed
in — changes none of the values the model's accessors subsequently read,
and those values are exactly the argument contents at construction time.
(All other accessors of the embedding are pure functions of the stored
model; the only state-changing accessor is the documented
`active_state_indexes` cache fill, whose benignity is
`active_state_indexes_idempotent`.) -/
theorem constructor_deepcopy_isolated
    (hI : List (List Int)) (hM : List Mat)
    (activeAddr : Nat) (dtrajAddrs connAddrs : List Nat)
    (cfullAddr cactiveAddr : Nat)
    (hactive : activeAddr < hI.length)
    (hdtraj : ∀ x ∈ dtrajAddrs, x < hI.length)
    (hconn : ∀ x ∈ connAddrs, x < hI.length)
    (hcf : cfullAddr < hM.length) (hca : cactiveAddr < hM.length)
    (a : Nat) (v : List Int) (b : Nat) (w : Mat)
    (ha : a < hI.length) (hb : b < hM.length) :
    storedReads
      (heapWrite (constructStored hI hM activeAddr dtrajAddrs connAddrs
        cfullAddr cactiveAddr).1 a v)
      (heapWrite (constructStored hI hM activeAddr dtrajAddrs connAddrs
        cfullAddr cactiveAddr).2.1 b w)
      (constructStored hI hM activeAddr dtrajAddrs connAddrs
        cfullAddr cactiveAddr).2.2 =
    storedReads
      (constructStored hI hM activeAddr dtrajAddrs connAddrs
        cfullAddr cactiveAddr).1
      (constructStored hI hM activeAddr dtrajAddrs connAddrs
        cfullAddr cactiveAddr).2.1
      (constructStored hI hM activeAddr dtrajAddrs connAddrs
        cfullAddr cactiveAddr).2.2 ∧
    storedReads
      (constructStored hI hM activeAddr dtrajAddrs connAddrs
        cfullAddr cactiveAddr).1
      (constructStored hI hM activeAddr dtrajAddrs connAddrs
        cfullAddr cactiveAddr).2.1
      (constructStored hI hM activeAddr dtrajAddrs connAddrs
        cfullAddr cactiveAddr).2.2 =
      (dtrajAddrs.map (heapRead [] hI), heapRead [] hI activeAddr,
       connAddrs.map (heapRead [] hI), heapRead [] hM cfullAddr,
       heapRead [] hM cactiveAddr) := by
  simp only [constructStored, storedReads]
  have hlen1 : (hI ++ [heapRead [] hI activeAddr]).length = hI.length + 1 := by
    simp
  have hlen2 : ((hI ++ [heapRead [] hI activeAddr]) ++
      dtrajAddrs.map (heapRead [] (hI ++ [heapRead [] hI activeAddr]))).length =
      hI.length + 1 + dtrajAddrs.length := by
    simp
    omega
  have hlenM1 : (hM ++ [heapRead [] hM cfullAddr]).length = hM.length + 1 := by
    simp
  constructor
  · simp only [Prod.mk.injEq]
    refine ⟨?_, ?_, ?_, ?_, ?_⟩
    · apply List.map_congr_left
      intro x hx
      obtain ⟨k, _, rfl⟩ := List.mem_map.1 hx
      apply heapRead_write_ne
      omega
    · apply heapRead_write_ne
      omega
    · apply List.map_congr_left
      intro x hx
      obtain ⟨k, _, rfl⟩ := List.mem_map.1 hx
      apply heapRead_write_ne
      omega
    · apply heapRead_write_ne
      omega
    · apply heapRead_write_ne
      omega
  · simp only [Prod.mk.injEq]
    refine ⟨?_, ?_, ?_, ?_, ?_⟩
    · apply List.ext_getElem?
      intro i
      rw [List.getElem?_map, List.getElem?_map, List.getElem?_map]
      rcases Nat.lt_or_ge i dtrajAddrs.length with hi | hi
      · rw [List.getElem?_range hi, List.getElem?_eq_getElem hi]
        simp only [Option.map_some']
        congr 1
        rw [heapRead_block [] _ _ _ i (by rw [List.length_map]; exact hi)]
        rw [heapRead_map_cell [] _ dtrajAddrs i hi]
        exact heapRead_append_left [] hI _ _ (hdtraj _ (List.getElem_mem hi))
      · rw [List.getElem?_eq_none (by rw [List.length_range]; exact hi),
          List.getElem?_eq_none hi]
        rfl
    · rw [List.append_assoc]
      have := heapRead_block ([] : List Int) hI [heapRead [] hI activeAddr]
        ((dtrajAddrs.map (heapRead [] (hI ++ [heapRead [] hI activeAddr]))) ++
          connAddrs.map (heapRead []
            ((hI ++ [heapRead [] hI activeAddr]) ++
              dtrajAddrs.map (heapRead [] (hI ++ [heapRead [] hI activeAddr])))))
        0 (by simp)
      exact this
    · apply List.ext_getElem?
      intro i
      rw [List.getElem?_map, List.getElem?_map, List.getElem?_map]
      rcases Nat.lt_or_ge i connAddrs.length with hi | hi
      · rw [List.getElem?_range hi, List.getElem?_eq_getElem hi]
        simp only [Option.map_some']
        congr 1
        rw [heapRead_append_right ([] : List Int) _ _ i]
        rw [heapRead_map_cell [] _ connAddrs i hi]
        rw [heapRead_append_left [] _ _ _
          (by rw [hlen1]; exact Nat.lt_succ_of_lt (hconn _ (List.getElem_mem hi)))]
        exact heapRead_append_left [] hI _ _ (hconn _ (List.getElem_mem hi))
      · rw [List.getElem?_eq_none (by rw [List.length_range]; exact hi),
          List.getElem?_eq_none hi]
        rfl
    · exact heapRead_block ([] : Mat) hM [heapRead [] hM cfullAddr]
        [heapRead [] (hM ++ [heapRead [] hM cfullAddr]) cactiveAddr] 0 (by simp)
    · have := heapRead_append_right ([] : Mat)
        (hM ++ [heapRead [] hM cfullAddr])
        [heapRead [] (hM ++ [heapRead [] hM cfullAddr]) cactiveAddr] 0
      rw [Nat.add_zero] at this
      rw [this, heapRead_single]
      exact heapRead_append_left [] hM _ _ hca

/-- Witness for `constructor_deepcopy_isolated`: a two-cell integer heap
(the caller's active-set cell at address 0 and one trajectory cell at
address 1) and a one-cell matrix heap, with both caller cells overwritten
after construction. -/
theorem constructor_deepcopy_isolated_witness :
    storedReads
      (heapWrite (constructStored [[5], [6]] [[[1]]] 0 [1] [] 0 0).1 0 [9])
      (heapWrite (constructStored [[5], [6]] [[[1]]] 0 [1] [] 0 0).2.1 0 [[2]])
      (constructStored [[5], [6]] [[[1]]] 0 [1] [] 0 0).2.2 =
    storedReads (constructStored [[5], [6]] [[[1]]] 0 [1] [] 0 0).1
      (constructStored [[5], [6]] [[[1]]] 0 [1] [] 0 0).2.1
      (constructStored [[5], [6]] [[[1]]] 0 [1] [] 0 0).2.2 ∧
    storedReads (constructStored [[5], [6]] [[[1]]] 0 [1] [] 0 0).1
      (constructStored [[5], [6]] [[[1]]] 0 [1] [] 0 0).2.1
      (constructStored [[5], [6]] [[[1]]] 0 [1] [] 0 0).2.2 =
      (([1] : List Nat).map (heapRead [] [[5], [6]]),
       heapRead [] [[5], [6]] 0,
       ([] : List Nat).map (heapRead [] [[5], [6]]),
       heapRead [] [[[1]]] 0,
       heapRead [] [[[1]]] 0) :=
  constructor_deepcopy_isolated [[5], [6]] [[[1]]] 0 [1] [] 0 0
    (by decide) (by decide) (by decide) (by decide) (by decide)
    0 [9] 0 [[2]] (by decide) (by decide)
